import Mathlib

/-!
Verification of the LQR notebook (`lqr-demo.ipynb`) of the scratchpad
repository.

The notebook defines two functions:

* `lqr(A, B, Q, R)` — asserts matrix-shape preconditions, solves the
  discrete algebraic Riccati equation via `scipy.linalg.solve_discrete_are`,
  and returns the gain `K = inv(BᵀPB + R) · (BᵀPA)` using `scipy.linalg.inv`;
* `integrate(x0, pi, num_steps)` — simulates the closed-loop system,
  starting from the shifted state `x0 + C` and stepping with
  `x' = A·x + B·(pi(x) + squeeze(D))`, returning the trajectory un-shifted
  by `- C`.

NumPy arrays carry dynamic shapes, so `lqr` is embedded over a dynamic
matrix type `DynMatrix` (a shape together with a total entry function);
real entries are idealised as rationals.  The call to
`scipy.linalg.solve_discrete_are` is an external library call: it is
embedded as an explicit function parameter `solveDare`, and theorems that
depend on its output constrain it by the documented contract of the scipy
routine (it returns the unique stabilizing, symmetric, positive
semi-definite solution of the DARE).  The call to `scipy.linalg.inv` is
embedded as `scipyInv`: exact matrix inversion by the cofactor formula,
failing exactly on singular input, which mirrors the scipy routine raising
`LinAlgError` on a singular matrix.
-/

/-- A NumPy-style 2-D array with dynamic shape: a number of rows, a number
of columns, and a total entry function (entries outside the declared shape
are irrelevant junk). -/
structure DynMatrix where
  rows : ℕ
  cols : ℕ
  entry : ℕ → ℕ → ℚ

/-- `numpy.transpose` / the `.T` attribute. -/
def DynMatrix.transpose (X : DynMatrix) : DynMatrix :=
  ⟨X.cols, X.rows, fun i j => X.entry j i⟩

/-- `numpy.dot` on 2-D arrays: matrix product, summing over the left
factor's column count. -/
def DynMatrix.dot (X Y : DynMatrix) : DynMatrix :=
  ⟨X.rows, Y.cols, fun i j => ∑ k in Finset.range X.cols, X.entry i k * Y.entry k j⟩

/-- Entrywise matrix addition (`+` on NumPy arrays of equal shape). -/
def DynMatrix.add (X Y : DynMatrix) : DynMatrix :=
  ⟨X.rows, X.cols, fun i j => X.entry i j + Y.entry i j⟩

/-- Entrywise matrix subtraction (`-` on NumPy arrays of equal shape). -/
def DynMatrix.sub (X Y : DynMatrix) : DynMatrix :=
  ⟨X.rows, X.cols, fun i j => X.entry i j - Y.entry i j⟩

/-- The square `rows × rows` window of a dynamic matrix as a Mathlib
matrix (used to state spectral and definiteness properties). -/
def DynMatrix.sq (X : DynMatrix) : Matrix (Fin X.rows) (Fin X.rows) ℚ :=
  Matrix.of fun i j => X.entry i j

/-- The minor of a dynamic matrix obtained by deleting row `r` and column
`c`. -/
def DynMatrix.minorAt (X : DynMatrix) (r c : ℕ) : DynMatrix :=
  ⟨X.rows - 1, X.cols - 1, fun i j =>
    X.entry (if i < r then i else i + 1) (if j < c then j else j + 1)⟩

/-- Determinant of the leading `n × n` window of a dynamic matrix, by
Laplace expansion along the first row. -/
def detDyn : ℕ → DynMatrix → ℚ
  | 0, _ => 1
  | n + 1, X => ∑ j in Finset.range (n + 1),
      (-1 : ℚ) ^ j * X.entry 0 j * detDyn n (X.minorAt 0 j)

/-- Exact inverse of a square dynamic matrix by the cofactor formula
`inv(X) = det(X)⁻¹ · adj(X)` (junk when the matrix is singular; `scipyInv`
guards the singular case). -/
def dynInvTotal (X : DynMatrix) : DynMatrix :=
  ⟨X.rows, X.cols, fun i j =>
    (detDyn X.rows X)⁻¹ * ((-1 : ℚ) ^ (i + j) * detDyn (X.rows - 1) (X.minorAt j i))⟩

/-- Error kinds of the gain solver, as named by the specification:
`shapeMismatch` for a violated shape precondition (the notebook's
`AssertionError`, whose message names the offending matrix), and
`singularControlCost` for a singular control-cost term (the notebook's
uncaught `LinAlgError` from `scipy.linalg.inv`). -/
inductive LqrError where
  | shapeMismatch (msg : String)
  | singularControlCost
deriving DecidableEq

/-- Model of `scipy.linalg.inv`: exact inversion of a square matrix,
failing exactly when the matrix is singular (scipy raises `LinAlgError`
there — the specification's `SingularControlCost` at the gain formula's
inversion site). -/
def scipyInv (X : DynMatrix) : Except LqrError DynMatrix :=
  if X.rows ≠ X.cols then .error (.shapeMismatch "expected square matrix")
  else if detDyn X.rows X = 0 then .error .singularControlCost
  else .ok (dynInvTotal X)

/-- Embedding of the notebook's `lqr(A, B, Q, R)` (the specification's
`solve_gain`).  The six shape assertions are checked in source order with
the source's messages; then the Riccati equation is solved by the external
routine `solveDare` (the embedding of `scipy.linalg.solve_discrete_are`,
passed as a parameter), and the gain
`K = inv(BᵀMB + R) · (BᵀMA)` is returned. -/
def lqr (solveDare : DynMatrix → DynMatrix → DynMatrix → DynMatrix → DynMatrix)
    (A B Q R : DynMatrix) : Except LqrError DynMatrix :=
  if A.rows ≠ A.cols then .error (.shapeMismatch "A matrix is not square")
  else if Q.rows ≠ Q.cols then .error (.shapeMismatch "Q matrix is not square")
  else if R.rows ≠ R.cols then .error (.shapeMismatch "R matrix is not square")
  else
    let numStates := A.rows
    let numControls := B.cols
    if B.rows ≠ numStates then .error (.shapeMismatch "B matrix is incorrect shape")
    else if Q.rows ≠ numStates then .error (.shapeMismatch "Q matrix is incorrect size")
    else if R.rows ≠ numControls then .error (.shapeMismatch "R matrix is incorrect size")
    else
      let M := solveDare A B Q R
      (scipyInv (((B.transpose.dot M).dot B).add R)).map
        (fun Xinv => Xinv.dot ((B.transpose.dot M).dot A))

/-- Whether a gain-solver result is a shape-mismatch failure. -/
def isShapeErrB : Except LqrError DynMatrix → Bool
  | .error (.shapeMismatch _) => true
  | _ => false

/-- Whether a gain-solver result is a singular-control-cost failure. -/
def isSingularB : Except LqrError DynMatrix → Bool
  | .error .singularControlCost => true
  | _ => false

/-- Whether a gain-solver result is a successful gain matrix. -/
def isOkB : Except LqrError DynMatrix → Bool
  | .ok _ => true
  | _ => false

/-- The gain formula stated by the specification: `K = (BᵀPB + R)⁻¹ (BᵀPA)`,
with the inverse taken exactly.  Used to compare the value computed by
`lqr` against the specification's description. -/
def specGain (A B R P : DynMatrix) : DynMatrix :=
  (dynInvTotal (((B.transpose.dot P).dot B).add R)).dot ((B.transpose.dot P).dot A)

/-- The right-hand side of the discrete algebraic Riccati equation as the
specification writes it: `AᵀPA − AᵀPB (BᵀPB + R)⁻¹ BᵀPA + Q`. -/
def dareRHS (A B Q R P : DynMatrix) : DynMatrix :=
  (((A.transpose.dot P).dot A).sub
    (((A.transpose.dot P).dot B).dot (specGain A B R P))).add Q

/-- `P` is an `M × M` solution of the discrete algebraic Riccati equation
for `(A, B, Q, R)` (entrywise, inside the declared shape). -/
def IsDareSolution (A B Q R P : DynMatrix) : Prop :=
  P.rows = A.rows ∧ P.cols = A.rows ∧
    ∀ i j, i < A.rows → j < A.rows → P.entry i j = (dareRHS A B Q R P).entry i j

/-- Symmetry of a dynamic matrix inside its declared shape. -/
def dynSymm (P : DynMatrix) : Prop :=
  P.rows = P.cols ∧ ∀ i j, i < P.rows → j < P.rows → P.entry i j = P.entry j i

/-- Positive semi-definiteness of the quadratic form of a dynamic matrix:
`∑ i ∑ j, v i · P i j · v j ≥ 0` for every assignment `v`. -/
def dynPSD (P : DynMatrix) : Prop :=
  ∀ v : ℕ → ℚ,
    0 ≤ ∑ i in Finset.range P.rows, ∑ j in Finset.range P.rows, v i * P.entry i j * v j

/-- Discrete-time asymptotic stability: the spectral radius of the matrix
(viewed over `ℂ`) is strictly below `1`. -/
def dynStable (X : DynMatrix) : Prop :=
  spectralRadius ℂ ((DynMatrix.sq X).map (fun q : ℚ => (q : ℂ))) < 1

/-- `P` is the stabilizing symmetric positive-semidefinite solution of the
DARE: it solves the equation, is symmetric and positive semi-definite, and
the closed loop `A − B·K` it induces through the gain formula is
asymptotically stable.  This is the documented contract of
`scipy.linalg.solve_discrete_are`. -/
def IsStabilizingSolution (A B Q R P : DynMatrix) : Prop :=
  IsDareSolution A B Q R P ∧ dynSymm P ∧ dynPSD P ∧
    dynStable (A.sub (B.dot (specGain A B R P)))

/-- Entrywise closeness of two dynamic matrices: same shape and every
entry pair within `tol` of each other. -/
def entriesWithin (X Y : DynMatrix) (tol : ℚ) : Prop :=
  X.rows = Y.rows ∧ X.cols = Y.cols ∧ ∀ i j, |X.entry i j - Y.entry i j| ≤ tol

/-- Real state / control vectors of a fixed length. -/
abbrev Vec (m : ℕ) := Fin m → ℚ

/-- One step of the notebook's `integrate` loop:
`x_prime = A.dot(x) + B.dot(u + np.squeeze(D))` with `u = pi(x)` (the
`(N, 1)` column `D` enters squeezed, i.e. as a length-`N` vector). -/
def integrateStep {m n : ℕ} (A : Matrix (Fin m) (Fin m) ℚ) (B : Matrix (Fin m) (Fin n) ℚ)
    (D : Vec n) (pol : Vec m → Vec n) (x : Vec m) : Vec m :=
  fun i => A.mulVec x i + B.mulVec (fun j => pol x j + D j) i

/-- The states appended by the notebook's `integrate` loop after the
initial one: each iteration reads the last state and appends one step. -/
def integrateAux {m n : ℕ} (A : Matrix (Fin m) (Fin m) ℚ) (B : Matrix (Fin m) (Fin n) ℚ)
    (D : Vec n) (pol : Vec m → Vec n) : Vec m → ℕ → List (Vec m)
  | _, 0 => []
  | x, k + 1 =>
    integrateStep A B D pol x :: integrateAux A B D pol (integrateStep A B D pol x) k

/-- Embedding of the notebook's `integrate(x0, pi, num_steps)` (the
specification's `simulate`), with the closure variables `A`, `B`, `C`, `D`
lifted to parameters.  The trajectory starts at `x0.copy() + C`, appends
`num_steps` loop states, and is un-shifted by `- C` on return.  The
specification's `offset_state` is `-C` and its `offset_control` is the
squeezed `D`. -/
def integrate {m n : ℕ} (A : Matrix (Fin m) (Fin m) ℚ) (B : Matrix (Fin m) (Fin n) ℚ)
    (C : Vec m) (D : Vec n) (x0 : Vec m) (pol : Vec m → Vec n) (numSteps : ℕ) :
    List (Vec m) :=
  ((fun i => x0 i + C i) :: integrateAux A B D pol (fun i => x0 i + C i) numSteps).map
    (fun v => fun i => v i - C i)

/-- The specification's internal shifted state sequence:
`s₀ = x0 − offset_state` and
`sₖ₊₁ = A·sₖ + B·(policy(sₖ) + offset_control)`. -/
def specShifted {m n : ℕ} (A : Matrix (Fin m) (Fin m) ℚ) (B : Matrix (Fin m) (Fin n) ℚ)
    (offS : Vec m) (offC : Vec n) (x0 : Vec m) (pol : Vec m → Vec n) : ℕ → Vec m
  | 0 => fun i => x0 i - offS i
  | k + 1 => fun i =>
      A.mulVec (specShifted A B offS offC x0 pol k) i +
        B.mulVec (fun j => pol (specShifted A B offS offC x0 pol k) j + offC j) i

/-- The trajectory described by the specification: the shifted states
`s₀, …, s_num_steps`, each un-shifted by adding back `offset_state`. -/
def specSimulate {m n : ℕ} (A : Matrix (Fin m) (Fin m) ℚ) (B : Matrix (Fin m) (Fin n) ℚ)
    (offS : Vec m) (offC : Vec n) (x0 : Vec m) (pol : Vec m → Vec n) (numSteps : ℕ) :
    List (Vec m) :=
  (List.range (numSteps + 1)).map
    (fun k => fun i => specShifted A B offS offC x0 pol k i + offS i)

/-- Example system (scalar): `A = [[0]]`. -/
def exA : DynMatrix := ⟨1, 1, fun _ _ => 0⟩

/-- Example system (scalar): `B = [[1]]`. -/
def exB : DynMatrix := ⟨1, 1, fun _ _ => 1⟩

/-- Example system (scalar): `Q = [[1]]`. -/
def exQ : DynMatrix := ⟨1, 1, fun _ _ => 1⟩

/-- Example system (scalar): `R = [[1]]`. -/
def exR : DynMatrix := ⟨1, 1, fun _ _ => 1⟩

/-- Stabilizing DARE solution for the example system: `P = [[1]]`. -/
def exP : DynMatrix := ⟨1, 1, fun _ _ => 1⟩

/-- Riccati solver for the example system, returning its stabilizing
solution. -/
def exDare : DynMatrix → DynMatrix → DynMatrix → DynMatrix → DynMatrix := fun _ _ _ _ => exP

/-- Unstable scalar system used against the degenerate-cost scenario:
`A = [[2]]`. -/
def cxA : DynMatrix := ⟨1, 1, fun _ _ => 2⟩

/-- `B = [[1]]` for the degenerate-cost scenario. -/
def cxB : DynMatrix := ⟨1, 1, fun _ _ => 1⟩

/-- `Q = [[1]]` for the degenerate-cost scenario. -/
def cxQ : DynMatrix := ⟨1, 1, fun _ _ => 1⟩

/-- `R = [[0]]`, the zero control-cost matrix of the degenerate-cost
scenario. -/
def cxR : DynMatrix := ⟨1, 1, fun _ _ => 0⟩

/-- Stabilizing DARE solution for `(cxA, cxB, cxQ, cxR)`: `P = [[1]]`
(indeed `1 = 4 − 2·1·2 + 1`, and the closed loop is `2 − 1·2 = 0`). -/
def cxP : DynMatrix := ⟨1, 1, fun _ _ => 1⟩

/-- Riccati solver for the degenerate-cost scenario, returning its
stabilizing solution. -/
def cxDare : DynMatrix → DynMatrix → DynMatrix → DynMatrix → DynMatrix := fun _ _ _ _ => cxP

/-- Scalar system whose control-cost term really is singular:
`B = [[0]]` and `R = [[0]]` give `BᵀPB + R = [[0]]`. -/
def snA : DynMatrix := ⟨1, 1, fun _ _ => 0⟩

/-- `B = [[0]]` for the genuinely singular scenario. -/
def snB : DynMatrix := ⟨1, 1, fun _ _ => 0⟩

/-- `Q = [[1]]` for the genuinely singular scenario. -/
def snQ : DynMatrix := ⟨1, 1, fun _ _ => 1⟩

/-- `R = [[0]]` for the genuinely singular scenario. -/
def snR : DynMatrix := ⟨1, 1, fun _ _ => 0⟩

/-- Riccati solver for the genuinely singular scenario (with `B = 0` and
`A = 0` the DARE reduces to `P = Q`). -/
def snDare : DynMatrix → DynMatrix → DynMatrix → DynMatrix → DynMatrix :=
  fun _ _ _ _ => ⟨1, 1, fun _ _ => 1⟩

/-- Two-state system with correct shapes but ill-conditioned costs:
`A = I₂`. -/
def vA : DynMatrix := ⟨2, 2, fun i j => if i = j then 1 else 0⟩

/-- `B` of shape `2 × 1`. -/
def vB : DynMatrix := ⟨2, 1, fun _ _ => 1⟩

/-- A non-symmetric (hence not positive semi-definite) `Q`. -/
def vQ : DynMatrix := ⟨2, 2, fun i j => if i = 0 ∧ j = 1 then 1 else 0⟩

/-- `R = [[0]]`: not positive definite. -/
def vR : DynMatrix := ⟨1, 1, fun _ _ => 0⟩

/-- An arbitrary Riccati-solver output for the ill-conditioned system. -/
def vDare : DynMatrix → DynMatrix → DynMatrix → DynMatrix → DynMatrix :=
  fun _ _ _ _ => ⟨2, 2, fun _ _ => 0⟩

/-- The invalid-shape scenario of the specification: `A` of shape `3 × 3`. -/
def wA : DynMatrix := ⟨3, 3, fun _ _ => 0⟩

/-- The invalid-shape scenario of the specification: `B` of shape `4 × 2`. -/
def wB : DynMatrix := ⟨4, 2, fun _ _ => 0⟩

/-- A conforming `3 × 3` state-cost matrix for the invalid-shape scenario. -/
def wQ : DynMatrix := ⟨3, 3, fun _ _ => 0⟩

/-- A conforming `2 × 2` control-cost matrix for the invalid-shape
scenario. -/
def wR : DynMatrix := ⟨2, 2, fun _ _ => 0⟩

/-- One Riccati solver for the invalid-shape scenario. -/
def wDare1 : DynMatrix → DynMatrix → DynMatrix → DynMatrix → DynMatrix :=
  fun _ _ _ _ => ⟨3, 3, fun _ _ => 0⟩

/-- A second, different Riccati solver for the invalid-shape scenario
(used to show the result does not depend on the solver at all). -/
def wDare2 : DynMatrix → DynMatrix → DynMatrix → DynMatrix → DynMatrix :=
  fun _ _ _ _ => ⟨2, 2, fun _ _ => 1⟩

/-- `scipy.linalg.inv` succeeds on a square nonsingular matrix. -/
lemma scipyInv_ok (X : DynMatrix) (hsq : X.rows = X.cols) (hdet : detDyn X.rows X ≠ 0) :
    scipyInv X = .ok (dynInvTotal X) := by
  unfold scipyInv
  rw [if_neg (fun h => h hsq), if_neg hdet]

/-- `scipy.linalg.inv` fails on a square singular matrix. -/
lemma scipyInv_singular (X : DynMatrix) (hsq : X.rows = X.cols)
    (hdet : detDyn X.rows X = 0) : scipyInv X = .error .singularControlCost := by
  unfold scipyInv
  rw [if_neg (fun h => h hsq), if_pos hdet]

/-- Evaluation of `lqr` when all shape checks pass and the control-cost
term is invertible: the result is exactly the specification's gain formula
applied to the solver's output. -/
lemma lqr_eval (solveDare : DynMatrix → DynMatrix → DynMatrix → DynMatrix → DynMatrix)
    (A B Q R : DynMatrix)
    (hA : A.rows = A.cols) (hQsq : Q.rows = Q.cols) (hRsq : R.rows = R.cols)
    (hB : B.rows = A.rows) (hQ : Q.rows = A.rows) (hR : R.rows = B.cols)
    (hdet : detDyn B.cols (((B.transpose.dot (solveDare A B Q R)).dot B).add R) ≠ 0) :
    lqr solveDare A B Q R = .ok (specGain A B R (solveDare A B Q R)) := by
  unfold lqr
  rw [if_neg (fun h => h hA), if_neg (fun h => h hQsq), if_neg (fun h => h hRsq),
    if_neg (fun h => h hB), if_neg (fun h => h hQ), if_neg (fun h => h hR)]
  show Except.map (fun Xinv => Xinv.dot ((B.transpose.dot (solveDare A B Q R)).dot A))
      (scipyInv (((B.transpose.dot (solveDare A B Q R)).dot B).add R)) = _
  rw [scipyInv_ok _ rfl hdet]
  rfl

/-- Evaluation of `lqr` when all shape checks pass but the control-cost
term `BᵀPB + R` is singular: the inversion step fails. -/
lemma lqr_eval_singular
    (solveDare : DynMatrix → DynMatrix → DynMatrix → DynMatrix → DynMatrix)
    (A B Q R : DynMatrix)
    (hA : A.rows = A.cols) (hQsq : Q.rows = Q.cols) (hRsq : R.rows = R.cols)
    (hB : B.rows = A.rows) (hQ : Q.rows = A.rows) (hR : R.rows = B.cols)
    (hdet : detDyn B.cols (((B.transpose.dot (solveDare A B Q R)).dot B).add R) = 0) :
    lqr solveDare A B Q R = .error .singularControlCost := by
  unfold lqr
  rw [if_neg (fun h => h hA), if_neg (fun h => h hQsq), if_neg (fun h => h hRsq),
    if_neg (fun h => h hB), if_neg (fun h => h hQ), if_neg (fun h => h hR)]
  show Except.map (fun Xinv => Xinv.dot ((B.transpose.dot (solveDare A B Q R)).dot A))
      (scipyInv (((B.transpose.dot (solveDare A B Q R)).dot B).add R)) = _
  rw [scipyInv_singular _ rfl hdet]
  rfl

/-- A square dynamic matrix whose in-bounds entries all vanish is
asymptotically stable (its complex counterpart is the zero matrix). -/
lemma dynStable_of_zero (X : DynMatrix) (hr : 0 < X.rows)
    (h : ∀ i j, i < X.rows → j < X.rows → X.entry i j = 0) : dynStable X := by
  have hmap : (DynMatrix.sq X).map (fun q : ℚ => (q : ℂ)) = 0 := by
    ext i j
    simp [DynMatrix.sq, Matrix.map_apply, h i j i.isLt j.isLt]
  rw [dynStable, hmap]
  haveI : Nontrivial (Matrix (Fin X.rows) (Fin X.rows) ℂ) := by
    refine ⟨0, 1, fun hc => ?_⟩
    have h00 := congrFun (congrFun hc ⟨0, hr⟩) ⟨0, hr⟩
    simp [Matrix.one_apply] at h00
  have hsp : spectrum ℂ (0 : Matrix (Fin X.rows) (Fin X.rows) ℂ) = {0} := spectrum.zero_eq
  have hle : spectralRadius ℂ (0 : Matrix (Fin X.rows) (Fin X.rows) ℂ) ≤ 0 := by
    refine iSup₂_le fun k hk => ?_
    rw [hsp] at hk
    simp only [Set.mem_singleton_iff] at hk
    simp [hk]
  exact lt_of_le_of_lt hle (by norm_num)

/-- The control-cost term of the example system is `[[2]]`. -/
lemma exDet :
    detDyn exB.cols (((exB.transpose.dot (exDare exA exB exQ exR)).dot exB).add exR) = 2 := by
  simp [detDyn, DynMatrix.add, DynMatrix.dot, DynMatrix.transpose, DynMatrix.minorAt,
    exA, exB, exQ, exR, exP, exDare, Finset.sum_range_succ]
  norm_num

/-- `lqr` on the example system returns the gain of the stabilizing
solution. -/
lemma exLqr : lqr exDare exA exB exQ exR = .ok (specGain exA exB exR (exDare exA exB exQ exR)) :=
  lqr_eval exDare exA exB exQ exR rfl rfl rfl rfl rfl rfl (by rw [exDet]; norm_num)

/-- The example gain is the zero matrix inside its `1 × 1` shape. -/
lemma exGain (j : ℕ) : (specGain exA exB exR exP).entry 0 j = 0 := by
  simp [specGain, dynInvTotal, detDyn, DynMatrix.add, DynMatrix.dot, DynMatrix.transpose,
    DynMatrix.minorAt, exA, exB, exR, exP, Finset.sum_range_succ]

/-- `P = [[1]]` is the stabilizing symmetric positive-semidefinite DARE
solution of the example system. -/
lemma exStabSol : IsStabilizingSolution exA exB exQ exR exP := by
  refine ⟨⟨rfl, rfl, fun i j hi hj => ?_⟩, ⟨rfl, fun i j _ _ => rfl⟩, fun v => ?_, ?_⟩
  · simp [dareRHS, specGain, dynInvTotal, detDyn, DynMatrix.add, DynMatrix.dot,
      DynMatrix.sub, DynMatrix.transpose, DynMatrix.minorAt, exA, exB, exQ, exR, exP,
      Finset.sum_range_succ]
  · simp only [exP, Finset.sum_range_succ, Finset.sum_range_zero]
    simpa using mul_self_nonneg (v 0)
  · refine dynStable_of_zero _ (by decide) fun i j hi hj => ?_
    simp [DynMatrix.sub, DynMatrix.dot, specGain, dynInvTotal, detDyn, DynMatrix.add,
      DynMatrix.transpose, DynMatrix.minorAt, exA, exB, exR, exP, Finset.sum_range_succ]

/-- The control-cost term of the degenerate-cost scenario is `[[1]]`:
invertible even though `R = 0`. -/
lemma cxDet :
    detDyn cxB.cols (((cxB.transpose.dot (cxDare cxA cxB cxQ cxR)).dot cxB).add cxR) = 1 := by
  simp [detDyn, DynMatrix.add, DynMatrix.dot, DynMatrix.transpose, DynMatrix.minorAt,
    cxA, cxB, cxQ, cxR, cxP, cxDare, Finset.sum_range_succ]

/-- `lqr` on the degenerate-cost scenario succeeds. -/
lemma cxLqr : lqr cxDare cxA cxB cxQ cxR = .ok (specGain cxA cxB cxR (cxDare cxA cxB cxQ cxR)) :=
  lqr_eval cxDare cxA cxB cxQ cxR rfl rfl rfl rfl rfl rfl (by rw [cxDet]; norm_num)

/-- `P = [[1]]` is the stabilizing symmetric positive-semidefinite DARE
solution of the degenerate-cost scenario `(cxA, cxB, cxQ, cxR)`, even
though `R` is the zero matrix. -/
lemma cxStabSol : IsStabilizingSolution cxA cxB cxQ cxR cxP := by
  refine ⟨⟨rfl, rfl, fun i j hi hj => ?_⟩, ⟨rfl, fun i j _ _ => rfl⟩, fun v => ?_, ?_⟩
  · simp [dareRHS, specGain, dynInvTotal, detDyn, DynMatrix.add, DynMatrix.dot,
      DynMatrix.sub, DynMatrix.transpose, DynMatrix.minorAt, cxA, cxB, cxQ, cxR, cxP,
      Finset.sum_range_succ]
  · simp only [cxP, Finset.sum_range_succ, Finset.sum_range_zero]
    simpa using mul_self_nonneg (v 0)
  · refine dynStable_of_zero _ (by decide) fun i j hi hj => ?_
    simp [DynMatrix.sub, DynMatrix.dot, specGain, dynInvTotal, detDyn, DynMatrix.add,
      DynMatrix.transpose, DynMatrix.minorAt, cxA, cxB, cxR, cxP, Finset.sum_range_succ]

/-- The control-cost term of the genuinely singular scenario vanishes. -/
lemma snDet :
    detDyn snB.cols (((snB.transpose.dot (snDare snA snB snQ snR)).dot snB).add snR) = 0 := by
  simp [detDyn, DynMatrix.add, DynMatrix.dot, DynMatrix.transpose, DynMatrix.minorAt,
    snA, snB, snQ, snR, snDare, Finset.sum_range_succ]

/-- The `integrate` loop appends exactly `k` states. -/
lemma integrateAux_length {m n : ℕ} (A : Matrix (Fin m) (Fin m) ℚ)
    (B : Matrix (Fin m) (Fin n) ℚ) (D : Vec n) (pol : Vec m → Vec n) (x : Vec m) (k : ℕ) :
    (integrateAux A B D pol x k).length = k := by
  induction k generalizing x with
  | zero => rfl
  | succ k ih => simp [integrateAux, ih]

/-- Started from the shifted state `sₜ`, the `integrate` loop appends the
shifted states `sₜ₊₁, …, sₜ₊ₖ` of the specification's sequence. -/
lemma integrateAux_spec {m n : ℕ} (A : Matrix (Fin m) (Fin m) ℚ)
    (B : Matrix (Fin m) (Fin n) ℚ) (offS : Vec m) (offC : Vec n) (x0 : Vec m)
    (pol : Vec m → Vec n) (k t0 : ℕ) :
    integrateAux A B offC pol (specShifted A B offS offC x0 pol t0) k =
      (List.range k).map (fun t => specShifted A B offS offC x0 pol (t0 + 1 + t)) := by
  induction k generalizing t0 with
  | zero => rfl
  | succ k ih =>
    rw [List.range_succ_eq_map]
    simp only [List.map_cons, List.map_map]
    show integrateStep A B offC pol (specShifted A B offS offC x0 pol t0) ::
        integrateAux A B offC pol
          (integrateStep A B offC pol (specShifted A B offS offC x0 pol t0)) k = _
    have hstep : integrateStep A B offC pol (specShifted A B offS offC x0 pol t0) =
        specShifted A B offS offC x0 pol (t0 + 1) := rfl
    rw [hstep, ih (t0 + 1)]
    congr 1
    exact List.map_congr_left fun a _ =>
      congrArg (specShifted A B offS offC x0 pol) (by omega)

/-- C1: for every well-posed input `(A, B, Q, R)` satisfying the shape
preconditions — with the Riccati step delegated to a solver whose output
`P` is the stabilizing symmetric positive-semidefinite solution of the
DARE, and with the control-cost term invertible — `solve_gain` returns
exactly `K = (BᵀPB + R)⁻¹ (BᵀPA)`. -/
theorem lqr_gain_formula
    (solveDare : DynMatrix → DynMatrix → DynMatrix → DynMatrix → DynMatrix)
    (A B Q R : DynMatrix)
    (hA : A.rows = A.cols) (hQsq : Q.rows = Q.cols) (hRsq : R.rows = R.cols)
    (hB : B.rows = A.rows) (hQ : Q.rows = A.rows) (hR : R.rows = B.cols)
    (hsol : IsStabilizingSolution A B Q R (solveDare A B Q R))
    (hdet : detDyn B.cols (((B.transpose.dot (solveDare A B Q R)).dot B).add R) ≠ 0) :
    lqr solveDare A B Q R = .ok (specGain A B R (solveDare A B Q R)) :=
  lqr_eval solveDare A B Q R hA hQsq hRsq hB hQ hR hdet

/-- C1 witness: the scalar system `A = [[0]]`, `B = Q = R = [[1]]` with
its stabilizing solution `P = [[1]]`. -/
theorem lqr_gain_formula_witness :
    lqr exDare exA exB exQ exR = .ok (specGain exA exB exR (exDare exA exB exQ exR)) :=
  lqr_gain_formula exDare exA exB exQ exR rfl rfl rfl rfl rfl rfl exStabSol
    (by rw [exDet]; norm_num)

/-- C4: whenever the shape checks pass, the Riccati solver's output is the
stabilizing solution (the documented behaviour of
`scipy.linalg.solve_discrete_are` for stabilizable `(A, B)` and admissible
`Q, R`), and the control-cost term is invertible, the gain `K` returned by
`solve_gain` makes the closed loop `A − B·K` asymptotically stable
(spectral radius strictly below one). -/
theorem lqr_closed_loop_stable
    (solveDare : DynMatrix → DynMatrix → DynMatrix → DynMatrix → DynMatrix)
    (A B Q R K : DynMatrix)
    (hA : A.rows = A.cols) (hQsq : Q.rows = Q.cols) (hRsq : R.rows = R.cols)
    (hB : B.rows = A.rows) (hQ : Q.rows = A.rows) (hR : R.rows = B.cols)
    (hsol : IsStabilizingSolution A B Q R (solveDare A B Q R))
    (hdet : detDyn B.cols (((B.transpose.dot (solveDare A B Q R)).dot B).add R) ≠ 0)
    (hK : lqr solveDare A B Q R = .ok K) :
    dynStable (A.sub (B.dot K)) := by
  rw [lqr_eval solveDare A B Q R hA hQsq hRsq hB hQ hR hdet] at hK
  obtain rfl : specGain A B R (solveDare A B Q R) = K := Except.ok.inj hK
  exact hsol.2.2.2

/-- C4 witness: on the scalar example system the returned gain closes the
loop to the zero matrix, which is stable. -/
theorem lqr_closed_loop_stable_witness :
    dynStable (exA.sub (exB.dot (specGain exA exB exR (exDare exA exB exQ exR)))) :=
  lqr_closed_loop_stable exDare exA exB exQ exR _ rfl rfl rfl rfl rfl rfl exStabSol
    (by rw [exDet]; norm_num) exLqr

/-- C5 counterexample: with `A = [[2]]`, `B = [[1]]`, `Q = [[1]]` and
`R = [[0]]` (the zero matrix), the Riccati solver legitimately returns the
stabilizing solution `P = [[1]]`, the control-cost term `BᵀPB + R = [[1]]`
is invertible, and `solve_gain` succeeds — it does not fail with
`SingularControlCost`, refuting the claim that `R = 0` forces that
failure. -/
theorem lqr_zero_R_counterexample :
    IsStabilizingSolution cxA cxB cxQ cxR (cxDare cxA cxB cxQ cxR) ∧
    isSingularB (lqr cxDare cxA cxB cxQ cxR) = false ∧
    isOkB (lqr cxDare cxA cxB cxQ cxR) = true := by
  refine ⟨cxStabSol, ?_, ?_⟩ <;> rw [cxLqr] <;> rfl

/-- C5 amended: `solve_gain` fails with `SingularControlCost` exactly at
the inversion step, namely whenever the control-cost term `BᵀPB + R`
(with `P` the Riccati solver's output) is singular; `R` being the zero
matrix does not by itself cause this failure. -/
theorem lqr_singular_control_cost
    (solveDare : DynMatrix → DynMatrix → DynMatrix → DynMatrix → DynMatrix)
    (A B Q R : DynMatrix)
    (hA : A.rows = A.cols) (hQsq : Q.rows = Q.cols) (hRsq : R.rows = R.cols)
    (hB : B.rows = A.rows) (hQ : Q.rows = A.rows) (hR : R.rows = B.cols)
    (hdet : detDyn B.cols (((B.transpose.dot (solveDare A B Q R)).dot B).add R) = 0) :
    lqr solveDare A B Q R = .error .singularControlCost :=
  lqr_eval_singular solveDare A B Q R hA hQsq hRsq hB hQ hR hdet

/-- C5 amended witness: with `B = [[0]]` and `R = [[0]]` the control-cost
term vanishes and `solve_gain` fails with `SingularControlCost`. -/
theorem lqr_singular_control_cost_witness :
    lqr snDare snA snB snQ snR = .error .singularControlCost :=
  lqr_singular_control_cost snDare snA snB snQ snR rfl rfl rfl rfl rfl rfl snDet

/-- C6: for every valid input with `A` of size `M × M` and `B` of size
`M × N` (`M, N ≥ 1`), a gain matrix returned by `solve_gain` has size
`N × M`. -/
theorem lqr_gain_shape
    (solveDare : DynMatrix → DynMatrix → DynMatrix → DynMatrix → DynMatrix)
    (A B Q R K : DynMatrix)
    (hA : A.rows = A.cols) (hQsq : Q.rows = Q.cols) (hRsq : R.rows = R.cols)
    (hB : B.rows = A.rows) (hQ : Q.rows = A.rows) (hR : R.rows = B.cols)
    (hM : 1 ≤ A.rows) (hN : 1 ≤ B.cols)
    (hK : lqr solveDare A B Q R = .ok K) :
    K.rows = B.cols ∧ K.cols = A.rows := by
  by_cases hdet : detDyn B.cols (((B.transpose.dot (solveDare A B Q R)).dot B).add R) = 0
  · rw [lqr_eval_singular solveDare A B Q R hA hQsq hRsq hB hQ hR hdet] at hK
    exact absurd hK (by simp)
  · rw [lqr_eval solveDare A B Q R hA hQsq hRsq hB hQ hR hdet] at hK
    obtain rfl : specGain A B R (solveDare A B Q R) = K := Except.ok.inj hK
    exact ⟨rfl, hA.symm⟩

/-- C6 witness: on the scalar example system (`M = N = 1`) the returned
gain is `1 × 1`. -/
theorem lqr_gain_shape_witness :
    (specGain exA exB exR (exDare exA exB exQ exR)).rows = exB.cols ∧
    (specGain exA exB exR (exDare exA exB exQ exR)).cols = exA.rows :=
  lqr_gain_shape exDare exA exB exQ exR _ rfl rfl rfl rfl rfl rfl
    (by decide) (by decide) exLqr

/-- C8: `solve_gain` is deterministic — two calls with identical inputs
return gain matrices of the same shape whose entries differ by at most
`1e-6` (they are in fact identical). -/
theorem lqr_deterministic
    (solveDare : DynMatrix → DynMatrix → DynMatrix → DynMatrix → DynMatrix)
    (A B Q R K1 K2 : DynMatrix)
    (h1 : lqr solveDare A B Q R = .ok K1)
    (h2 : lqr solveDare A B Q R = .ok K2) :
    entriesWithin K1 K2 (1 / 1000000) := by
  obtain rfl : K1 = K2 := Except.ok.inj (h1.symm.trans h2)
  refine ⟨rfl, rfl, fun i j => ?_⟩
  rw [sub_self, abs_zero]
  norm_num

/-- C8 witness: two identical calls on the scalar example system agree to
within the tolerance. -/
theorem lqr_deterministic_witness :
    entriesWithin (specGain exA exB exR (exDare exA exB exQ exR))
      (specGain exA exB exR (exDare exA exB exQ exR)) (1 / 1000000) :=
  lqr_deterministic exDare exA exB exQ exR _ _ exLqr exLqr

/-- C9: the input validation of `solve_gain` covers only matrix shapes —
whenever all six dimension relations hold, the checks pass and the call
proceeds to the Riccati solve and gain computation (no `ShapeMismatch`
failure), regardless of the entries of `Q` and `R` (in particular for a
non-symmetric `Q` or a non-positive-definite `R`). -/
theorem lqr_checks_only_shapes
    (solveDare : DynMatrix → DynMatrix → DynMatrix → DynMatrix → DynMatrix)
    (A B Q R : DynMatrix)
    (hA : A.rows = A.cols) (hQsq : Q.rows = Q.cols) (hRsq : R.rows = R.cols)
    (hB : B.rows = A.rows) (hQ : Q.rows = A.rows) (hR : R.rows = B.cols) :
    isShapeErrB (lqr solveDare A B Q R) = false ∧
    lqr solveDare A B Q R =
      (scipyInv (((B.transpose.dot (solveDare A B Q R)).dot B).add R)).map
        (fun Xinv => Xinv.dot ((B.transpose.dot (solveDare A B Q R)).dot A)) := by
  have heq : lqr solveDare A B Q R =
      (scipyInv (((B.transpose.dot (solveDare A B Q R)).dot B).add R)).map
        (fun Xinv => Xinv.dot ((B.transpose.dot (solveDare A B Q R)).dot A)) := by
    unfold lqr
    rw [if_neg (fun h => h hA), if_neg (fun h => h hQsq), if_neg (fun h => h hRsq),
      if_neg (fun h => h hB), if_neg (fun h => h hQ), if_neg (fun h => h hR)]
  refine ⟨?_, heq⟩
  rw [heq]
  by_cases hdet : detDyn B.cols (((B.transpose.dot (solveDare A B Q R)).dot B).add R) = 0
  · rw [scipyInv_singular _ rfl hdet]
    rfl
  · rw [scipyInv_ok _ rfl hdet]
    rfl

/-- C9 witness: a two-state system whose matrices have the correct shapes
but whose `Q` is non-symmetric and whose `R` is the zero matrix passes all
checks and reaches the solve. -/
theorem lqr_checks_only_shapes_witness :
    isShapeErrB (lqr vDare vA vB vQ vR) = false ∧
    lqr vDare vA vB vQ vR =
      (scipyInv (((vB.transpose.dot (vDare vA vB vQ vR)).dot vB).add vR)).map
        (fun Xinv => Xinv.dot ((vB.transpose.dot (vDare vA vB vQ vR)).dot vA)) :=
  lqr_checks_only_shapes vDare vA vB vQ vR rfl rfl rfl rfl rfl rfl

/-- C3: whenever a shape precondition is violated — `A` not square, `Q`
not square or of dimension different from `A`'s, `R` not square, `B`'s row
count different from `A`'s dimension, or `R`'s dimension different from
`B`'s column count — `solve_gain` fails with a `ShapeMismatch` error (whose
message names the offending matrix), and the failure happens before any
numerical work: the result is the same for every Riccati solver, so the
solve is never attempted. -/
theorem lqr_shape_mismatch
    (dare1 dare2 : DynMatrix → DynMatrix → DynMatrix → DynMatrix → DynMatrix)
    (A B Q R : DynMatrix)
    (hviol : A.rows ≠ A.cols ∨ Q.rows ≠ Q.cols ∨ R.rows ≠ R.cols ∨
      B.rows ≠ A.rows ∨ Q.rows ≠ A.rows ∨ R.rows ≠ B.cols) :
    isShapeErrB (lqr dare1 A B Q R) = true ∧ lqr dare1 A B Q R = lqr dare2 A B Q R := by
  unfold lqr
  by_cases h1 : A.rows ≠ A.cols
  · simp only [if_pos h1]
    exact ⟨by trivial, by trivial⟩
  by_cases h2 : Q.rows ≠ Q.cols
  · simp only [if_neg h1, if_pos h2]
    exact ⟨by trivial, by trivial⟩
  by_cases h3 : R.rows ≠ R.cols
  · simp only [if_neg h1, if_neg h2, if_pos h3]
    exact ⟨by trivial, by trivial⟩
  by_cases h4 : B.rows ≠ A.rows
  · simp only [if_neg h1, if_neg h2, if_neg h3, if_pos h4]
    exact ⟨by trivial, by trivial⟩
  by_cases h5 : Q.rows ≠ A.rows
  · simp only [if_neg h1, if_neg h2, if_neg h3, if_neg h4, if_pos h5]
    exact ⟨by trivial, by trivial⟩
  by_cases h6 : R.rows ≠ B.cols
  · simp only [if_neg h1, if_neg h2, if_neg h3, if_neg h4, if_neg h5, if_pos h6]
    exact ⟨by trivial, by trivial⟩
  rcases hviol with h | h | h | h | h | h
  · exact absurd h h1
  · exact absurd h h2
  · exact absurd h h3
  · exact absurd h h4
  · exact absurd h h5
  · exact absurd h h6

/-- C3 witness: the specification's invalid-shape scenario, `A` of shape
`3 × 3` and `B` of shape `4 × 2` (with conforming `Q`, `R`), fails with
`ShapeMismatch` and returns the identical failure for two different
Riccati solvers. -/
theorem lqr_shape_mismatch_witness :
    isShapeErrB (lqr wDare1 wA wB wQ wR) = true ∧
    lqr wDare1 wA wB wQ wR = lqr wDare2 wA wB wQ wR :=
  lqr_shape_mismatch wDare1 wDare2 wA wB wQ wR
    (Or.inr (Or.inr (Or.inr (Or.inl (by decide)))))

/-- C2: `simulate(x0, policy, A, B, offset_state, offset_control,
num_steps)` — the notebook's `integrate` with `C = −offset_state` and
`D = offset_control` — returns exactly the specification's trajectory:
the shifted states `s₀ = x0 − offset_state`,
`sₖ₊₁ = A·sₖ + B·(policy(sₖ) + offset_control)`, each un-shifted by adding
back `offset_state`; it has `num_steps + 1` elements and its element `0`
is the unshifted initial state `x0`. -/
theorem integrate_matches_spec {m n : ℕ} (A : Matrix (Fin m) (Fin m) ℚ)
    (B : Matrix (Fin m) (Fin n) ℚ) (offS : Vec m) (offC : Vec n) (x0 : Vec m)
    (pol : Vec m → Vec n) (numSteps : ℕ) :
    integrate A B (fun i => -offS i) offC x0 pol numSteps =
      specSimulate A B offS offC x0 pol numSteps ∧
    (integrate A B (fun i => -offS i) offC x0 pol numSteps).length = numSteps + 1 ∧
    (integrate A B (fun i => -offS i) offC x0 pol numSteps).head? = some x0 := by
  have hs0 : (fun i => x0 i + -offS i) = specShifted A B offS offC x0 pol 0 :=
    funext fun i => (sub_eq_add_neg (x0 i) (offS i)).symm
  have hmain : integrate A B (fun i => -offS i) offC x0 pol numSteps =
      specSimulate A B offS offC x0 pol numSteps := by
    unfold integrate
    rw [hs0, integrateAux_spec A B offS offC x0 pol numSteps 0]
    unfold specSimulate
    rw [List.range_succ_eq_map]
    simp only [List.map_cons, List.map_map]
    congr 1
    · funext i
      show specShifted A B offS offC x0 pol 0 i - -offS i = _
      rw [sub_neg_eq_add]
    · refine List.map_congr_left fun a _ => funext fun i => ?_
      show specShifted A B offS offC x0 pol (0 + 1 + a) i - -offS i = _
      rw [sub_neg_eq_add]
      exact congrArg (fun t => specShifted A B offS offC x0 pol t i + offS i) (by omega)
  refine ⟨hmain, ?_, ?_⟩
  · rw [hmain]
    unfold specSimulate
    rw [List.length_map, List.length_range]
  · rw [hmain]
    unfold specSimulate
    rw [List.range_succ_eq_map]
    simp only [List.map_cons, List.head?_cons]
    refine congrArg some (funext fun i => ?_)
    show x0 i - offS i + offS i = x0 i
    ring

/-- C7: for every initial state, policy, dynamics and offsets, simulating
for `num_steps = 0` returns exactly one element, equal to the input `x0`
(the shift by `C` and the later un-shift by `− C` cancel). -/
theorem integrate_zero_steps {m n : ℕ} (A : Matrix (Fin m) (Fin m) ℚ)
    (B : Matrix (Fin m) (Fin n) ℚ) (C : Vec m) (D : Vec n) (x0 : Vec m)
    (pol : Vec m → Vec n) :
    integrate A B C D x0 pol 0 = [x0] := by
  unfold integrate integrateAux
  simp only [List.map_cons, List.map_nil]
  refine congrArg (fun v => [v]) (funext fun i => ?_)
  show x0 i + C i - C i = x0 i
  ring
